import Mathlib

/-!
# Verification of the DSP helper scripts

Shallow embedding of the two utility scripts of the `signal-processing-fpga`
repository:

* `uart_acquisition.py` — UART trigger/readback tool that decodes a 2048-byte
  frame into 512 complex spectrum points and plots them;
* `genrom.py` — ROM initialization file generator that synthesizes a sine or
  band-limited square waveform and serializes it as hex lines.

Python integers are modelled as `ℕ`/`ℤ`, floating-point samples as `ℝ`
(exact real arithmetic), fallible operations as `Option`.
-/

namespace DspScripts

/-! ## `uart_acquisition.py` -/

/-- One decoded spectrum point, as produced by the `plot_data` loop:
frequency axis value `f[k]`, sign-fixed real and imaginary parts
`data_re[k]`/`data_im[k]`, and magnitude `spectrum[k]`. -/
structure SpectrumPoint where
  freq : ℝ
  re : ℤ
  im : ℤ
  mag : ℝ

/-- Two's-complement fix-up from `plot_data`: `if raw > 32767: raw -= 65536`. -/
def s16fix (raw : ℕ) : ℤ :=
  if 32767 < raw then (raw : ℤ) - 65536 else (raw : ℤ)

/-- Body of the `for k in range(512)` loop of `plot_data`: decode point `k`
from the byte list. `raw_re = (data_chr[k*4+1] << 8) | data_chr[k*4+0]`,
`raw_im = (data_chr[k*4+3] << 8) | data_chr[k*4+2]`, both sign-fixed;
`spectrum[k] = sqrt(raw_re**2 + raw_im**2)`; `f[k] = 195.3125e3 * k`. -/
noncomputable def decodePoint (data : List ℕ) (k : ℕ) : SpectrumPoint :=
  let raw_re : ℕ := ((data.getD (k * 4 + 1) 0) <<< 8) ||| (data.getD (k * 4 + 0) 0)
  let re : ℤ := s16fix raw_re
  let raw_im : ℕ := ((data.getD (k * 4 + 3) 0) <<< 8) ||| (data.getD (k * 4 + 2) 0)
  let im : ℤ := s16fix raw_im
  { freq := 195.3125e3 * (k : ℝ)
    re := re
    im := im
    mag := Real.sqrt ((re : ℝ) ^ 2 + (im : ℝ) ^ 2) }

/-- The full decode loop of `plot_data`: 512 points from the byte buffer. -/
noncomputable def decodeFrame (data : List ℕ) : List SpectrumPoint :=
  (List.range 512).map (decodePoint data)

/-- `plot_data`: the decode loop reads byte indices `0 … 511*4+3 = 2047`;
on a buffer shorter than 2048 bytes Python raises `IndexError`,
modelled here as `none`. -/
noncomputable def plot_data (data : List ℕ) : Option (List SpectrumPoint) :=
  if 2048 ≤ data.length then some (decodeFrame data) else none

/-- Outcome of one run of `uart_acquisition`: either `plot_data` was invoked
on the received bytes, or the short-read diagnostic
`"Error when reading UART: received {n} bytes instead of 2048"` was printed. -/
inductive AcqOutcome where
  | plotted (pts : List SpectrumPoint) : AcqOutcome
  | shortRead (received : ℕ) : AcqOutcome

/-- `uart_acquisition`, abstracted over the bytes returned by the transport:
`if len(data) == 2048: plot_data(data) else: print(error with len(data))`. -/
noncomputable def uart_acquisition (data : List ℕ) : AcqOutcome :=
  if data.length = 2048 then .plotted (decodeFrame data) else .shortRead data.length

/-- Observable transport events of `read_uart`; sleep durations are in
microseconds (`time.sleep(0.01)` suspends for 10000 µs). -/
inductive UartEvent where
  | write (b : ℕ) : UartEvent
  | sleep (usec : ℕ) : UartEvent
  | read (n : ℕ) : UartEvent
deriving DecidableEq

/-- Duration of a sleep event in microseconds (0 for other events). -/
def UartEvent.sleepDuration : UartEvent → ℕ
  | .sleep s => s
  | _ => 0

/-- Whether an event is a sleep. -/
def UartEvent.isSleep : UartEvent → Bool
  | .sleep _ => true
  | _ => false

/-- The straight-line event trace of `read_uart`:
`uart_link.write(b'\x5A')`, `time.sleep(0.01)`, `uart_link.write(b'\xA5')`,
`uart_link.read(2048)`. -/
def read_uart_trace : List UartEvent :=
  [.write 0x5A, .sleep 10000, .write 0xA5, .read 2048]

/-! ### Bitwise decoding helpers -/

/-- A shifted value or-ed with a small value is their sum:
`(a * 2^n) ||| b = a * 2^n + b` when `b < 2^n`. -/
theorem lor_mul_two_pow_add {n a b : ℕ} (hb : b < 2 ^ n) :
    (a * 2 ^ n) ||| b = a * 2 ^ n + b := by
  induction n generalizing a b with
  | zero =>
    interval_cases b
    simp
  | succ n ih =>
    have hdecomp : b = Nat.bit (Nat.bodd b) (Nat.div2 b) := (Nat.bit_decomp b).symm
    have hmul : a * 2 ^ (n + 1) = Nat.bit false (a * 2 ^ n) := by
      simp [Nat.bit_val, pow_succ]
      ring
    have hdiv2 : Nat.div2 b < 2 ^ n := by
      rw [Nat.div2_val]
      omega
    calc (a * 2 ^ (n + 1)) ||| b
        = Nat.bit false (a * 2 ^ n) ||| Nat.bit (Nat.bodd b) (Nat.div2 b) := by
          rw [← hdecomp, ← hmul]
      _ = Nat.bit (false || Nat.bodd b) ((a * 2 ^ n) ||| Nat.div2 b) := by
          rw [Nat.lor_bit]
      _ = Nat.bit (Nat.bodd b) (a * 2 ^ n + Nat.div2 b) := by
          rw [Bool.false_or, ih hdiv2]
      _ = a * 2 ^ (n + 1) + b := by
          rw [Nat.bit_val]
          have hb2 : (Nat.bodd b).toNat + 2 * Nat.div2 b = b := Nat.bodd_add_div2 b
          have hpow : a * 2 ^ (n + 1) = 2 * (a * 2 ^ n) := by ring
          rw [hpow]
          omega

/-- `(hi << 8) | lo` equals the little-endian value `lo + 256 * hi`
whenever `lo` is a byte. -/
theorem shiftLeft_eight_lor {hi lo : ℕ} (hlo : lo < 256) :
    (hi <<< 8) ||| lo = lo + 256 * hi := by
  have h : hi <<< 8 = hi * 2 ^ 8 := Nat.shiftLeft_eq hi 8
  rw [h, lor_mul_two_pow_add (by omega : lo < 2 ^ 8)]
  ring

/-- Bytes read through `getD` with default 0 stay below 256 when every
element of the buffer is a byte. -/
theorem getD_lt_256 {data : List ℕ} (hbytes : ∀ b ∈ data, b < 256) (i : ℕ) :
    data.getD i 0 < 256 := by
  rcases Nat.lt_or_ge i data.length with h | h
  · rw [List.getD_eq_getElem?_getD, List.getElem?_eq_getElem h]
    exact hbytes _ (List.getElem_mem h)
  · rw [List.getD_eq_default _ _ h]
    omega

/-- `getD` only looks at the first `n` elements when the index is below `n`. -/
theorem getD_take_eq (l : List ℕ) (i n : ℕ) (h : i < n) :
    (l.take n).getD i 0 = l.getD i 0 := by
  rw [List.getD_eq_getElem?_getD, List.getD_eq_getElem?_getD,
    List.getElem?_take_of_lt h]

/-- `decodePoint` reads only byte indices below 2048 for `k < 512`. -/
theorem decodePoint_take (data : List ℕ) (k : ℕ) (hk : k < 512) :
    decodePoint (data.take 2048) k = decodePoint data k := by
  unfold decodePoint
  rw [getD_take_eq _ _ _ (by omega), getD_take_eq _ _ _ (by omega),
    getD_take_eq _ _ _ (by omega), getD_take_eq _ _ _ (by omega)]

/-! ### Claim theorems for the acquisition tool -/

/-- C1: on a 2048-byte buffer, `plot_data` produces 512 points; point `k` has
real part the little-endian signed 16-bit decode of bytes `4k, 4k+1`,
imaginary part the little-endian signed 16-bit decode of bytes `4k+2, 4k+3`
(raw value above 32767 reinterpreted as value minus 65536), magnitude
`sqrt(re² + im²)`, and frequency `k × 195312.5` Hz. -/
theorem c1_plot_data_decodes_frame (data : List ℕ) (hlen : data.length = 2048)
    (hbytes : ∀ b ∈ data, b < 256) (k : ℕ) (hk : k < 512) :
    plot_data data = some (decodeFrame data) ∧
    (decodeFrame data).length = 512 ∧
    (decodeFrame data)[k]? = some (decodePoint data k) ∧
    (decodePoint data k).re =
      s16fix (data.getD (4 * k) 0 + 256 * data.getD (4 * k + 1) 0) ∧
    (decodePoint data k).im =
      s16fix (data.getD (4 * k + 2) 0 + 256 * data.getD (4 * k + 3) 0) ∧
    (decodePoint data k).mag =
      Real.sqrt (((decodePoint data k).re : ℝ) ^ 2 +
        ((decodePoint data k).im : ℝ) ^ 2) ∧
    (decodePoint data k).freq = (k : ℝ) * 195312.5 := by
  refine ⟨by rw [plot_data, if_pos (by omega)], by simp [decodeFrame], ?_, ?_, ?_, ?_, ?_⟩
  · rw [decodeFrame, List.getElem?_map, List.getElem?_range hk]
    rfl
  · show s16fix _ = s16fix _
    rw [shiftLeft_eight_lor (getD_lt_256 hbytes _)]
    ring_nf
  · show s16fix _ = s16fix _
    rw [shiftLeft_eight_lor (getD_lt_256 hbytes _)]
    ring_nf
  · rfl
  · show 195.3125e3 * (k : ℝ) = (k : ℝ) * 195312.5
    norm_num [mul_comm]

/-- C1 witness: instantiation of `c1_plot_data_decodes_frame` on the all-zero
2048-byte buffer at point index 0. -/
theorem c1_witness :
    (List.replicate 2048 (0 : ℕ)).length = 2048 ∧ (0 : ℕ) < 512 ∧
    (decodeFrame (List.replicate 2048 0))[0]? =
      some (decodePoint (List.replicate 2048 0) 0) ∧
    (decodePoint (List.replicate 2048 0) 0).freq = ((0 : ℕ) : ℝ) * 195312.5 := by
  have hb : ∀ b ∈ List.replicate 2048 (0 : ℕ), b < 256 := by
    intro b hb
    rw [List.eq_of_mem_replicate hb]
    omega
  have h := c1_plot_data_decodes_frame (List.replicate 2048 0)
    (List.length_replicate 2048 0) hb 0 (by omega)
  exact ⟨List.length_replicate 2048 0, by omega, h.2.2.1, h.2.2.2.2.2.2⟩

/-- C6: the plotting routine is invoked exactly when the transport returned
2048 bytes; on fewer bytes the short-read diagnostic carrying the actual byte
count is reported instead. -/
theorem c6_short_read_skips_plot :
    (∀ data : List ℕ, data.length < 2048 →
      uart_acquisition data = .shortRead data.length) ∧
    (∀ data : List ℕ,
      (∃ pts, uart_acquisition data = .plotted pts) ↔ data.length = 2048) := by
  constructor
  · intro data h
    rw [uart_acquisition, if_neg (by omega)]
  · intro data
    constructor
    · rintro ⟨pts, hp⟩
      rw [uart_acquisition] at hp
      by_cases h : data.length = 2048
      · exact h
      · rw [if_neg h] at hp
        exact (AcqOutcome.noConfusion hp)
    · intro h
      exact ⟨decodeFrame data, by rw [uart_acquisition, if_pos h]⟩

/-- C7: in the `read_uart` event trace, the byte `0x5A` is written first;
any write of `0xA5` is preceded by the completed `0x5A` write and by a sleep
of at least 10 ms (10000 µs); and any read happens only after the `0xA5`
write. -/
theorem c7_handshake_ordering :
    read_uart_trace.head? = some (.write 0x5A) ∧
    (∀ i : Fin read_uart_trace.length,
      read_uart_trace.get i = .write 0xA5 →
      ∃ j k : Fin read_uart_trace.length, j.val < k.val ∧ k.val < i.val ∧
        read_uart_trace.get j = .write 0x5A ∧
        (read_uart_trace.get k).isSleep = true ∧
        10000 ≤ (read_uart_trace.get k).sleepDuration) ∧
    (∀ i : Fin read_uart_trace.length,
      read_uart_trace.get i = .read 2048 →
      ∃ j : Fin read_uart_trace.length, j.val < i.val ∧
        read_uart_trace.get j = .write 0xA5) := by
  decide

/-- C10: `plot_data` accepts any buffer of at least 2048 bytes, produces 512
points, and its output is determined by the first 2048 bytes alone. -/
theorem c10_plot_data_ignores_extra_bytes (data : List ℕ)
    (h : 2048 ≤ data.length) :
    plot_data data = some (decodeFrame data) ∧
    (decodeFrame data).length = 512 ∧
    plot_data data = plot_data (data.take 2048) := by
  refine ⟨by rw [plot_data, if_pos h], by simp [decodeFrame], ?_⟩
  have hlen : (data.take 2048).length = 2048 := by
    rw [List.length_take]
    omega
  rw [plot_data, plot_data, if_pos h, if_pos (by omega)]
  have : decodeFrame (data.take 2048) = decodeFrame data := by
    rw [decodeFrame, decodeFrame]
    apply List.map_congr_left
    intro k hk
    exact decodePoint_take data k (List.mem_range.mp hk)
  rw [this]

/-- C10 witness: instantiation of `c10_plot_data_ignores_extra_bytes` on an
all-zero buffer of 2049 bytes. -/
theorem c10_witness :
    2048 ≤ (List.replicate 2049 (0 : ℕ)).length ∧
    plot_data (List.replicate 2049 0) =
      some (decodeFrame (List.replicate 2049 0)) ∧
    (decodeFrame (List.replicate 2049 (0 : ℕ))).length = 512 ∧
    plot_data (List.replicate 2049 0) =
      plot_data ((List.replicate 2049 (0 : ℕ)).take 2048) :=
  ⟨by rw [List.length_replicate]; omega,
    c10_plot_data_ignores_extra_bytes _ (by rw [List.length_replicate]; omega)⟩

/-! ## `genrom.py` -/

/-- Amplitude gain constant of `genrom` (`gain = 80`). -/
noncomputable def gain : ℝ := 80

/-- Number of ROM samples in `genrom`: `number_points = 2**memory_depth`
with `memory_depth = 9`. -/
def number_points : ℕ := 2 ^ 9

/-- Accumulated time vector of `genrom`: `t[0] = 0.0` and
`t[i] = t[i-1] + sampling_period` for `i ≥ 1`. -/
noncomputable def tAcc (T : ℝ) : ℕ → ℝ
  | 0 => 0
  | i + 1 => tAcc T i + T

/-- The harmonic-index loop of `genrom` starting from `n`: `count` entries,
stepping by 2 (`m.append(n); n += 2`). -/
def harmonicsFrom (n : ℕ) : ℕ → List ℕ
  | 0 => []
  | count + 1 => n :: harmonicsFrom (n + 2) count

/-- The `m` list of `genrom`: `number_harmonics` odd indices `1, 3, 5, …`. -/
def mList (numberHarmonics : ℕ) : List ℕ := harmonicsFrom 1 numberHarmonics

/-- The pair `(cos_frequency, number_harmonics)` assigned by the two
sequential `if` statements of `genrom`. When both flags are set the
`args.sin` branch overwrites the `args.square` branch (it is tested second);
when neither is set the two variables are never assigned and Python raises
`UnboundLocalError` at their first use, modelled as `none`. -/
noncomputable def genromParams (square sinFlag : Bool) (T : ℝ) : Option (ℝ × ℕ) :=
  let afterSquare : Option (ℝ × ℕ) :=
    if square then some (1 / ((number_points : ℝ) * T), 10) else none
  if sinFlag then some (25e6, 1) else afterSquare

/-- The inner accumulation loop of `genrom` for sample `i`:
`Ve[i] += (gain / m[j]) * sin(2.0 * pi * m[j] * cos_frequency * t[i])`
over the harmonic list, starting from `Ve[i] = 0.0`. -/
noncomputable def sampleValue (g f T : ℝ) (numberHarmonics i : ℕ) : ℝ :=
  (mList numberHarmonics).foldl
    (fun (acc : ℝ) (mj : ℕ) => acc + (g / (mj : ℝ)) *
      Real.sin (2 * Real.pi * (mj : ℝ) * f * tAcc T i)) 0

/-- The sample buffer `Ve` computed by `genrom`, abstracted over the gain
(the source fixes `gain = 80`, see `genromVe`) and over the sampling period
`T = sampling_period = 1 / (1e6 * args.sampling_frequency)`. -/
noncomputable def genromVeGain (g : ℝ) (square sinFlag : Bool) (T : ℝ) :
    Option (List ℝ) :=
  (genromParams square sinFlag T).map fun p =>
    (List.range number_points).map (sampleValue g p.1 T p.2)

/-- The sample buffer `Ve` of `genrom` with the source's `gain = 80`. -/
noncomputable def genromVe (square sinFlag : Bool) (T : ℝ) : Option (List ℝ) :=
  genromVeGain gain square sinFlag T

/-! ### ROM serialization (`int(v).to_bytes(2, 'big', signed=True)` + `hexlify`) -/

/-- Truncation toward zero, Python `int(v)` on a float value. -/
noncomputable def truncToInt (x : ℝ) : ℤ := if 0 ≤ x then ⌊x⌋ else ⌈x⌉

/-- Big-endian byte list of length `len` for a natural number
(most significant byte first, value taken modulo `256 ^ len`). -/
def natToBytesBE : ℕ → ℕ → List ℕ
  | 0, _ => []
  | len + 1, v => natToBytesBE len (v / 256) ++ [v % 256]

/-- Python `int.to_bytes(len, byteorder='big', signed=True)`: big-endian
two's-complement bytes, `none` when the value is outside the signed range
(Python raises `OverflowError`). -/
def toBytesSignedBE (len : ℕ) (n : ℤ) : Option (List ℕ) :=
  if -(2 ^ (8 * len - 1)) ≤ n ∧ n < 2 ^ (8 * len - 1) then
    some (natToBytesBE len (n % (2 ^ (8 * len))).toNat)
  else none

/-- Lowercase hex digit pair of one byte, as written by `hexlify`. -/
def byteToHex (b : ℕ) : List Char := [Nat.digitChar (b / 16), Nat.digitChar (b % 16)]

/-- `hexlify(...).decode('utf-8')`: the lowercase hex character string of a
byte sequence. -/
def hexlify (bs : List ℕ) : List Char := (bs.map byteToHex).flatten

/-- One line written by `genrom` for sample `v`:
`hexlify(int(v).to_bytes(memory_width // 8, byteorder='big', signed=True))`
with `memory_width = 16`; `none` models Python's `OverflowError`. -/
noncomputable def romLine (v : ℝ) : Option (List Char) :=
  (toBytesSignedBE 2 (truncToInt v)).map hexlify

/-- Value of a hexadecimal digit character (inverse of `Nat.digitChar` on
values below 16; 0 on non-hex characters). -/
def hexDigitVal (c : Char) : ℕ :=
  if c = '0' then 0 else if c = '1' then 1 else if c = '2' then 2
  else if c = '3' then 3 else if c = '4' then 4 else if c = '5' then 5
  else if c = '6' then 6 else if c = '7' then 7 else if c = '8' then 8
  else if c = '9' then 9 else if c = 'a' then 10 else if c = 'b' then 11
  else if c = 'c' then 12 else if c = 'd' then 13 else if c = 'e' then 14
  else if c = 'f' then 15 else 0

/-- Modelled from the spec: decoding of a serialized line for the round-trip
property of §8.3 — the hex digits are read big-endian as an unsigned integer
which is then reinterpreted as a signed integer of the given bit width. -/
def decodeHexSigned (width : ℕ) (cs : List Char) : ℤ :=
  let u : ℕ := cs.foldl (fun a c => 16 * a + hexDigitVal c) 0
  if 2 ^ (width - 1) ≤ u then (u : ℤ) - 2 ^ width else (u : ℤ)

/-! ### Waveform synthesis lemmas -/

/-- The accumulated time vector equals `i * T` in exact arithmetic. -/
theorem tAcc_eq (T : ℝ) (i : ℕ) : tAcc T i = (i : ℝ) * T := by
  induction i with
  | zero => simp [tAcc]
  | succ i ih =>
    rw [tAcc, ih]
    push_cast
    ring

/-- The harmonic accumulation loop evaluates to a closed-form sum: starting
from accumulator `a`, folding over `harmonicsFrom n H` adds the `H` terms at
indices `n, n + 2, …, n + 2(H-1)`. -/
theorem foldl_harmonicsFrom (g f t : ℝ) (H : ℕ) :
    ∀ (n : ℕ) (a : ℝ),
      (harmonicsFrom n H).foldl
        (fun (acc : ℝ) (mj : ℕ) => acc + (g / (mj : ℝ)) *
          Real.sin (2 * Real.pi * (mj : ℝ) * f * t)) a
      = a + ∑ j ∈ Finset.range H,
          (g / ((n + 2 * j : ℕ) : ℝ)) *
            Real.sin (2 * Real.pi * ((n + 2 * j : ℕ) : ℝ) * f * t) := by
  induction H with
  | zero =>
    intro n a
    simp [harmonicsFrom]
  | succ H ih =>
    intro n a
    rw [harmonicsFrom, List.foldl_cons, ih (n + 2), Finset.sum_range_succ']
    have hsum : ∀ j ∈ Finset.range H,
        (g / ((n + 2 + 2 * j : ℕ) : ℝ)) *
          Real.sin (2 * Real.pi * ((n + 2 + 2 * j : ℕ) : ℝ) * f * t)
        = (g / ((n + 2 * (j + 1) : ℕ) : ℝ)) *
          Real.sin (2 * Real.pi * ((n + 2 * (j + 1) : ℕ) : ℝ) * f * t) := by
      intro j _
      have e : n + 2 + 2 * j = n + 2 * (j + 1) := by ring
      rw [e]
    rw [Finset.sum_congr rfl hsum]
    have e0 : n + 2 * 0 = n := by ring
    rw [e0]
    ring

/-- `sampleValue` as a closed-form sum over the harmonic indices
`1, 3, …, 2H - 1`. -/
theorem sampleValue_eq_sum (g f T : ℝ) (H i : ℕ) :
    sampleValue g f T H i
      = ∑ j ∈ Finset.range H,
          (g / ((1 + 2 * j : ℕ) : ℝ)) *
            Real.sin (2 * Real.pi * ((1 + 2 * j : ℕ) : ℝ) * f * tAcc T i) := by
  rw [sampleValue, mList, foldl_harmonicsFrom, zero_add]

/-! ### Claim theorems for the ROM generator waveform -/

set_option maxRecDepth 8000 in
/-- C3: for a Square configuration, sample `i` of the generated buffer is the
sum over the 10 odd harmonics `1, 3, …, 19` of
`(gain / (2j+1)) · sin(2π (2j+1) · (1/(512 T)) · (i T))`, the fundamental
being `1 / (number_points · sampling_period)` and the time vector advancing
by `T` per index from `t[0] = 0`. -/
theorem c3_square_wave_samples (g T : ℝ) (l : List ℝ)
    (h : genromVeGain g true false T = some l) (i : ℕ) (hi : i < 512) :
    l[i]? = some (∑ j ∈ Finset.range 10,
      (g / (2 * (j : ℝ) + 1)) *
        Real.sin (2 * Real.pi * (2 * (j : ℝ) + 1) *
          (1 / (512 * T)) * ((i : ℝ) * T))) := by
  have hveq : genromVeGain g true false T
      = some ((List.range number_points).map
          (sampleValue g (1 / ((number_points : ℝ) * T)) T 10)) := rfl
  rw [hveq] at h
  have hl : l = (List.range number_points).map
      (sampleValue g (1 / ((number_points : ℝ) * T)) T 10) :=
    ((Option.some.injEq _ _).mp h).symm
  subst hl
  rw [List.getElem?_map,
    List.getElem?_range (show i < number_points by simpa [number_points] using hi)]
  simp only [Option.map_some']
  congr 1
  rw [sampleValue_eq_sum]
  apply Finset.sum_congr rfl
  intro j _
  have hnp : ((number_points : ℝ)) = 512 := by norm_num [number_points]
  have hcast : ((1 + 2 * j : ℕ) : ℝ) = 2 * (j : ℝ) + 1 := by
    push_cast
    ring
  rw [hcast, tAcc_eq, hnp]

/-- C3 witness: instantiation of `c3_square_wave_samples` with gain 1,
sampling period 1, at sample index 0. -/
theorem c3_witness :
    genromVeGain 1 true false 1 = some ((List.range number_points).map
      (sampleValue 1 (1 / ((number_points : ℝ) * 1)) 1 10)) ∧
    (0 : ℕ) < 512 ∧
    ((List.range number_points).map
      (sampleValue 1 (1 / ((number_points : ℝ) * 1)) 1 10))[0]? =
      some (∑ j ∈ Finset.range 10,
        ((1 : ℝ) / (2 * (j : ℝ) + 1)) *
          Real.sin (2 * Real.pi * (2 * (j : ℝ) + 1) *
            (1 / (512 * 1)) * (((0 : ℕ) : ℝ) * 1))) := by
  refine ⟨rfl, by omega, ?_⟩
  exact c3_square_wave_samples 1 1 _ rfl 0 (by omega)

/-- C5 (code bug evaluation): with both `--square` and `--sin` passed, the
two sequential `if` statements let the sine branch overwrite the square
branch and generation proceeds with `(cos_frequency, number_harmonics) =
(25 MHz, 1)` instead of rejecting the ambiguous selection; with neither flag
passed the variables stay unassigned (`UnboundLocalError`, modelled `none`)
rather than a validation error being raised. -/
theorem c5_flag_validation_missing :
    genromParams true true 1 = some (25e6, 1) ∧
    genromVe true true 1 =
      some ((List.range number_points).map (sampleValue gain 25e6 1 1)) ∧
    genromParams false false 1 = none :=
  ⟨rfl, rfl, rfl⟩

/-- C8: for a Sine configuration, sample 0 of the generated buffer is 0 for
every gain and sampling period, because `t[0] = 0` and `sin 0 = 0`. -/
theorem c8_sine_first_sample_zero (g T : ℝ) :
    ∃ l, genromVeGain g false true T = some l ∧ l[0]? = some 0 := by
  refine ⟨(List.range number_points).map (sampleValue g 25e6 T 1), rfl, ?_⟩
  rw [List.getElem?_map,
    List.getElem?_range (by norm_num [number_points] : 0 < number_points)]
  simp only [Option.map_some']
  congr 1
  rw [sampleValue_eq_sum]
  apply Finset.sum_eq_zero
  intro j hj
  have h0 : tAcc T 0 = 0 := rfl
  rw [h0, mul_zero, Real.sin_zero, mul_zero]

/-! ### Serialization lemmas -/

/-- `hexDigitVal` inverts `Nat.digitChar` on values below 16. -/
theorem hexDigitVal_digitChar (d : ℕ) (hd : d < 16) :
    hexDigitVal (Nat.digitChar d) = d := by
  interval_cases d <;> rfl

/-- Big-endian fold of the hex characters of two bytes recovers the 16-bit
value `256 * b1 + b2`. -/
theorem hexlify_two_foldl (b1 b2 : ℕ) (h1 : b1 < 256) (h2 : b2 < 256) :
    (hexlify [b1, b2]).foldl (fun a c => 16 * a + hexDigitVal c) 0
      = 256 * b1 + b2 := by
  have e1 := hexDigitVal_digitChar (b1 / 16) (by omega)
  have e2 := hexDigitVal_digitChar (b1 % 16) (by omega)
  have e3 := hexDigitVal_digitChar (b2 / 16) (by omega)
  have e4 := hexDigitVal_digitChar (b2 % 16) (by omega)
  show 16 * (16 * (16 * (16 * 0 + hexDigitVal (Nat.digitChar (b1 / 16)))
      + hexDigitVal (Nat.digitChar (b1 % 16)))
      + hexDigitVal (Nat.digitChar (b2 / 16)))
      + hexDigitVal (Nat.digitChar (b2 % 16)) = 256 * b1 + b2
  rw [e1, e2, e3, e4]
  omega

/-- The two big-endian bytes of a 16-bit value. -/
theorem natToBytesBE_two (u : ℕ) :
    natToBytesBE 2 u = [u / 256 % 256, u % 256] := rfl

/-- Decoding the hex serialization of a 16-bit value as a signed big-endian
integer gives the value, sign-adjusted. -/
theorem decodeHexSigned_hexlify (u : ℕ) (hu : u < 65536) :
    decodeHexSigned 16 (hexlify (natToBytesBE 2 u))
      = if 32768 ≤ u then (u : ℤ) - 65536 else (u : ℤ) := by
  rw [natToBytesBE_two]
  have hdm : u / 256 % 256 = u / 256 := Nat.mod_eq_of_lt (by omega)
  have hfold : (hexlify [u / 256 % 256, u % 256]).foldl
      (fun a c => 16 * a + hexDigitVal c) 0 = 256 * (u / 256 % 256) + u % 256 :=
    hexlify_two_foldl _ _ (by omega) (by omega)
  rw [decodeHexSigned, hfold, hdm]
  have hval : 256 * (u / 256) + u % 256 = u := by omega
  rw [hval]
  norm_num

/-- Truncation toward zero of an integer-valued real is that integer. -/
theorem truncToInt_intCast (m : ℤ) : truncToInt ((m : ℤ) : ℝ) = m := by
  rw [truncToInt]
  rcases le_or_lt (0 : ℝ) ((m : ℤ) : ℝ) with h | h
  · rw [if_pos h, Int.floor_intCast]
  · rw [if_neg (not_le.mpr h), Int.ceil_intCast]

/-- `to_bytes(2, 'big', signed=True)` succeeds exactly on the signed 16-bit
range; on success it encodes the value modulo 2^16. -/
theorem toBytesSignedBE_two_eq (n : ℤ) (h1 : -32768 ≤ n) (h2 : n ≤ 32767) :
    toBytesSignedBE 2 n = some (natToBytesBE 2 ((n % 65536).toNat)) := by
  have hc : -(2 ^ (8 * 2 - 1)) ≤ n ∧ n < 2 ^ (8 * 2 - 1) := by
    have e : (2 : ℤ) ^ (8 * 2 - 1) = 32768 := by norm_num
    rw [e]
    omega
  rw [toBytesSignedBE, if_pos hc]
  have e2 : (2 : ℤ) ^ (8 * 2) = 65536 := by norm_num
  rw [e2]

/-! ### Claim theorems for the ROM serializer -/

/-- C2: for every sample value whose truncation toward zero is within the
signed 16-bit range, the hex line the serializer emits decodes (big-endian,
signed, 16-bit) back to exactly the truncated value. -/
theorem c2_hex_line_roundtrip (v : ℝ) (h1 : -32768 ≤ truncToInt v)
    (h2 : truncToInt v ≤ 32767) :
    romLine v = some (hexlify (natToBytesBE 2 ((truncToInt v % 65536).toNat))) ∧
    decodeHexSigned 16 (hexlify (natToBytesBE 2 ((truncToInt v % 65536).toNat)))
      = truncToInt v := by
  constructor
  · rw [romLine, toBytesSignedBE_two_eq _ h1 h2, Option.map_some']
  · have hu : (truncToInt v % 65536).toNat < 65536 := by omega
    rw [decodeHexSigned_hexlify _ hu]
    rcases le_or_lt 32768 ((truncToInt v % 65536).toNat) with h | h
    · rw [if_pos h]
      have := Int.toNat_of_nonneg
        (show (0 : ℤ) ≤ truncToInt v % 65536 by omega)
      omega
    · rw [if_neg (not_le.mpr h)]
      have := Int.toNat_of_nonneg
        (show (0 : ℤ) ≤ truncToInt v % 65536 by omega)
      omega

/-- C2 witness: instantiation of `c2_hex_line_roundtrip` at the sample value
5.0, whose truncation 5 is in range. -/
theorem c2_witness :
    -32768 ≤ truncToInt ((5 : ℤ) : ℝ) ∧ truncToInt ((5 : ℤ) : ℝ) ≤ 32767 ∧
    (romLine ((5 : ℤ) : ℝ) =
      some (hexlify (natToBytesBE 2 ((truncToInt ((5 : ℤ) : ℝ) % 65536).toNat))) ∧
    decodeHexSigned 16
      (hexlify (natToBytesBE 2 ((truncToInt ((5 : ℤ) : ℝ) % 65536).toNat)))
      = truncToInt ((5 : ℤ) : ℝ)) := by
  have h5 : truncToInt ((5 : ℤ) : ℝ) = 5 := truncToInt_intCast 5
  refine ⟨by rw [h5]; omega, by rw [h5]; omega, ?_⟩
  exact c2_hex_line_roundtrip _ (by rw [h5]; omega) (by rw [h5]; omega)

/-- C4 counterexample: at the sample value 40000.0 (truncation 40000, above
the signed 16-bit range) the serializer does not emit a wrapped line — it
fails (`OverflowError`, modelled as `none`), refuting the claimed silent
wraparound. -/
theorem c4_counterexample :
    32767 < truncToInt ((40000 : ℤ) : ℝ) ∧ romLine ((40000 : ℤ) : ℝ) = none := by
  have h : truncToInt ((40000 : ℤ) : ℝ) = 40000 := truncToInt_intCast 40000
  constructor
  · rw [h]
    omega
  · have hc : ¬(-(2 ^ (8 * 2 - 1)) ≤ truncToInt ((40000 : ℤ) : ℝ) ∧
        truncToInt ((40000 : ℤ) : ℝ) < 2 ^ (8 * 2 - 1)) := by
      have e : (2 : ℤ) ^ (8 * 2 - 1) = 32768 := by norm_num
      rw [e, h]
      omega
    rw [romLine, toBytesSignedBE, if_neg hc]
    rfl

/-- C4 (amended): for every sample whose truncation toward zero lies outside
the representable signed 16-bit range, the serializer fails with an overflow
error (modelled as `none`) and emits no line; it does not silently wrap. -/
theorem c4_out_of_range_fails (v : ℝ)
    (hv : truncToInt v < -32768 ∨ 32767 < truncToInt v) :
    romLine v = none := by
  have hc : ¬(-(2 ^ (8 * 2 - 1)) ≤ truncToInt v ∧
      truncToInt v < 2 ^ (8 * 2 - 1)) := by
    have e : (2 : ℤ) ^ (8 * 2 - 1) = 32768 := by norm_num
    rw [e]
    omega
  rw [romLine, toBytesSignedBE, if_neg hc]
  rfl

/-- C4 witness: instantiation of `c4_out_of_range_fails` at the sample value
40000.0. -/
theorem c4_witness :
    (truncToInt ((40000 : ℤ) : ℝ) < -32768 ∨
      32767 < truncToInt ((40000 : ℤ) : ℝ)) ∧
    romLine ((40000 : ℤ) : ℝ) = none := by
  have h : truncToInt ((40000 : ℤ) : ℝ) = 40000 := truncToInt_intCast 40000
  have hor : truncToInt ((40000 : ℤ) : ℝ) < -32768 ∨
      32767 < truncToInt ((40000 : ℤ) : ℝ) := Or.inr (by rw [h]; omega)
  exact ⟨hor, c4_out_of_range_fails _ hor⟩

/-! ### Sample amplitude bound (safety of serialization) -/

/-- One harmonic term is bounded by `|g| / m` in absolute value. -/
theorem harmonic_term_abs_le (g f t : ℝ) (m : ℕ) :
    |(g / (m : ℝ)) * Real.sin (2 * Real.pi * (m : ℝ) * f * t)| ≤ |g| / (m : ℝ) := by
  rw [abs_mul, abs_div, Nat.abs_cast]
  have hs : |Real.sin (2 * Real.pi * (m : ℝ) * f * t)| ≤ 1 :=
    abs_le.mpr ⟨Real.neg_one_le_sin _, Real.sin_le_one _⟩
  have hnn : (0 : ℝ) ≤ |g| / (m : ℝ) := div_nonneg (abs_nonneg g) (Nat.cast_nonneg m)
  calc |g| / (m : ℝ) * |Real.sin (2 * Real.pi * (m : ℝ) * f * t)|
      ≤ |g| / (m : ℝ) * 1 := mul_le_mul_of_nonneg_left hs hnn
    _ = |g| / (m : ℝ) := mul_one _

/-- The harmonic accumulation fold is bounded by the accumulator plus the sum
of the per-harmonic amplitude bounds. -/
theorem abs_harmonic_foldl_le (g f T : ℝ) (i : ℕ) (L : List ℕ) :
    ∀ a : ℝ,
      |L.foldl (fun (acc : ℝ) (mj : ℕ) => acc + (g / (mj : ℝ)) *
        Real.sin (2 * Real.pi * (mj : ℝ) * f * tAcc T i)) a|
      ≤ |a| + (L.map (fun (mj : ℕ) => |g| / (mj : ℝ))).sum := by
  induction L with
  | nil =>
    intro a
    simp
  | cons m L ih =>
    intro a
    rw [List.foldl_cons, List.map_cons, List.sum_cons]
    refine le_trans (ih _) ?_
    have hterm := harmonic_term_abs_le g f (tAcc T i) m
    have habs : |a + (g / (m : ℝ)) * Real.sin (2 * Real.pi * (m : ℝ) * f * tAcc T i)|
        ≤ |a| + |g| / (m : ℝ) :=
      le_trans (abs_add _ _) (by linarith)
    linarith

/-- `sampleValue` is bounded by the sum of the amplitude magnitudes. -/
theorem sampleValue_abs_le (g f T : ℝ) (H i : ℕ) :
    |sampleValue g f T H i| ≤ ((mList H).map (fun (mj : ℕ) => |g| / (mj : ℝ))).sum := by
  have h := abs_harmonic_foldl_le g f T i (mList H) 0
  rw [sampleValue]
  simpa using h

/-- The gain has magnitude 80. -/
theorem abs_gain : |gain| = 80 := by
  rw [gain]
  exact abs_of_nonneg (by norm_num)

/-- Truncation toward zero of a real with `|x| < 171` stays within the signed
16-bit range. -/
theorem truncToInt_bounds {x : ℝ} (hx : |x| < 171) :
    -32768 ≤ truncToInt x ∧ truncToInt x ≤ 32767 := by
  rcases abs_lt.mp hx with ⟨hlo, hhi⟩
  rw [truncToInt]
  rcases le_or_lt (0 : ℝ) x with h | h
  · rw [if_pos h]
    have h1 : (0 : ℤ) ≤ ⌊x⌋ := Int.floor_nonneg.mpr h
    have h2 : ⌊x⌋ < 171 := Int.floor_lt.mpr (by norm_num; exact hhi)
    omega
  · rw [if_neg (not_le.mpr h)]
    have h1 : ⌈x⌉ ≤ 0 := Int.ceil_le.mpr (by norm_num; exact le_of_lt h)
    have h2 : -171 < ⌈x⌉ := Int.lt_ceil.mpr (by norm_num; exact hlo)
    omega

/-- `romLine` succeeds whenever the truncated sample is in the signed 16-bit
range. -/
theorem romLine_isSome {x : ℝ} (h1 : -32768 ≤ truncToInt x)
    (h2 : truncToInt x ≤ 32767) : (romLine x).isSome = true := by
  rw [romLine, toBytesSignedBE_two_eq _ h1 h2]
  rfl

/-- C9: under the program's fixed parameters (gain 80, at most 10 odd
harmonics `1, 3, …, 19`), every generated sample is bounded in magnitude by
`80 · (1 + 1/3 + ⋯ + 1/19) < 171`, its truncation lies strictly inside the
signed 16-bit range, and serialization of the sample always succeeds. -/
theorem c9_generated_samples_serializable (square sinFlag : Bool) (T : ℝ)
    (l : List ℝ) (h : genromVe square sinFlag T = some l) (v : ℝ) (hv : v ∈ l) :
    |v| < 171 ∧ -32768 ≤ truncToInt v ∧ truncToInt v ≤ 32767 ∧
    (romLine v).isSome = true := by
  have habs : |v| < 171 := by
    cases sinFlag with
    | true =>
      have hveq : genromVe square true T = some ((List.range number_points).map
          (sampleValue gain 25e6 T 1)) := by
        cases square <;> rfl
      rw [hveq] at h
      have hl : (List.range number_points).map (sampleValue gain 25e6 T 1) = l :=
        (Option.some.injEq _ _).mp h
      rw [← hl] at hv
      obtain ⟨i, _, rfl⟩ := List.mem_map.mp hv
      refine lt_of_le_of_lt (sampleValue_abs_le gain 25e6 T 1 i) ?_
      have hsum : ((mList 1).map (fun (mj : ℕ) => |gain| / (mj : ℝ))).sum = 80 := by
        simp [mList, harmonicsFrom, abs_gain]
      rw [hsum]
      norm_num
    | false =>
      cases square with
      | false =>
        rw [show genromVe false false T = none from rfl] at h
        exact Option.noConfusion h
      | true =>
        have hveq : genromVe true false T = some ((List.range number_points).map
            (sampleValue gain (1 / ((number_points : ℝ) * T)) T 10)) := rfl
        rw [hveq] at h
        have hl : (List.range number_points).map
            (sampleValue gain (1 / ((number_points : ℝ) * T)) T 10) = l :=
          (Option.some.injEq _ _).mp h
        rw [← hl] at hv
        obtain ⟨i, _, rfl⟩ := List.mem_map.mp hv
        refine lt_of_le_of_lt
          (sampleValue_abs_le gain (1 / ((number_points : ℝ) * T)) T 10 i) ?_
        have hsum : ((mList 10).map (fun (mj : ℕ) => |gain| / (mj : ℝ))).sum
            = 80 / 1 + (80 / 3 + (80 / 5 + (80 / 7 + (80 / 9 + (80 / 11 +
              (80 / 13 + (80 / 15 + (80 / 17 + (80 / 19 + 0))))))))) := by
          simp [mList, harmonicsFrom, abs_gain]
        rw [hsum]
        norm_num
  obtain ⟨hb1, hb2⟩ := truncToInt_bounds habs
  exact ⟨habs, hb1, hb2, romLine_isSome hb1 hb2⟩

/-- C9 witness: instantiation of `c9_generated_samples_serializable` on the
Sine configuration with sampling period 1, at sample 0 of the buffer. -/
theorem c9_witness :
    genromVe false true 1 = some ((List.range number_points).map
      (sampleValue gain 25e6 1 1)) ∧
    sampleValue gain 25e6 1 1 0 ∈
      (List.range number_points).map (sampleValue gain 25e6 1 1) ∧
    (|sampleValue gain 25e6 1 1 0| < 171 ∧
     -32768 ≤ truncToInt (sampleValue gain 25e6 1 1 0) ∧
     truncToInt (sampleValue gain 25e6 1 1 0) ≤ 32767 ∧
     (romLine (sampleValue gain 25e6 1 1 0)).isSome = true) := by
  have h1 : genromVe false true 1 = some ((List.range number_points).map
      (sampleValue gain 25e6 1 1)) := rfl
  have h2 : sampleValue gain 25e6 1 1 0 ∈
      (List.range number_points).map (sampleValue gain 25e6 1 1) :=
    List.mem_map_of_mem _ (List.mem_range.mpr (by norm_num [number_points]))
  exact ⟨h1, h2, c9_generated_samples_serializable false true 1 _ h1 _ h2⟩

end DspScripts
